import Mathlib

/-!
# Verification of the janus-array reverse-lookup core

Shallow embedding of the janus-array repository: a four-level range tree
(`File` → `Slices` → `Commands` → `CommandElements`) where every node carries
absolute/relative half-open byte ranges and an ordinal, and `find_address`
performs a recursive binary search turning a byte offset into a `Coordinates`
triple (slice index, command index, element index).

Addresses are `u64` in the source; no arithmetic on addresses is performed
(only comparisons), so they are modelled as `Nat`.  The `usize` loop indices
perform the subtractions `mid - 1` (guarded by `mid == 0`) and `len - 1`
(guarded by `has_children`); the binary-search loop is modelled with an
explicit fuel parameter equal to the interval size, and fuel sufficiency is
proved separately (claim C9).

The file `src/slices.rs` is not part of the provided sources (only its
callers in `file.rs` and its type declarations in `lib.rs`/`types.rs` are),
so the `Slices` level is modelled from the spec where indicated.

Rust's `sort_by_key` is a stable sort; `List.insertionSort` with the
non-strict key order is likewise stable, and two stable sorts for the same
key agree on every input, so `List.insertionSort` is used as the extensional
model of `sort_by_key` (it also reduces in the kernel, unlike
`List.mergeSort`).
-/

namespace JanusArray

/-- Model of Rust `Range<u64>`: the half-open interval `[rstart, rend)`. -/
structure RangeU where
  rstart : Nat
  rend : Nat
deriving DecidableEq, Repr, Inhabited

/-- Model of `Range::contains` for `Range<u64>`. -/
def RangeU.containsAddr (r : RangeU) (a : Nat) : Bool :=
  decide (r.rstart ≤ a) && decide (a < r.rend)

/-- Model of `Coordinates` from `src/coordinates.rs`: up to three optional indices. -/
structure Coordinates where
  slice : Option Nat
  command : Option Nat
  element : Option Nat
deriving DecidableEq, Repr, Inhabited

/-- Model of `Coordinates::new` — all indices unset. -/
def Coordinates.new : Coordinates := { slice := none, command := none, element := none }

/-- Model of `OffsetLayoutsError` from `src/disk_offsets.rs`. -/
inductive OffsetLayoutsError where
  | AddressOutsideCurrentScope : Nat → RangeU → OffsetLayoutsError
  | InconsistentStructure : Nat → RangeU → OffsetLayoutsError
  | InconsistentSearch : OffsetLayoutsError
  | NotFound : Nat → OffsetLayoutsError
  | SliceIsBroken : OffsetLayoutsError
  | CommandIsBroken : OffsetLayoutsError
deriving DecidableEq, Repr

instance {ε α : Type} [DecidableEq ε] [DecidableEq α] : DecidableEq (Except ε α)
  | .ok x, .ok y =>
    if h : x = y then .isTrue (by rw [h])
    else .isFalse (by intro hc; cases hc; exact h rfl)
  | .ok _, .error _ => .isFalse (by intro hc; cases hc)
  | .error _, .ok _ => .isFalse (by intro hc; cases hc)
  | .error x, .error y =>
    if h : x = y then .isTrue (by rw [h])
    else .isFalse (by intro hc; cases hc; exact h rfl)

/-- Outcome of the shared binary-search loop body: either the probed child at
index `mid` whose absolute range contains the address, or the
gap/overlap-defect error case, or exhaustion of the interval (including the
`mid == 0` break). -/
inductive BinOutcome (α : Type) where
  | found : Nat → α → BinOutcome α
  | inconsistent : RangeU → BinOutcome α
  | exhausted : BinOutcome α
deriving DecidableEq, Repr

/-- The `while start <= end` binary-search loop shared verbatim by
`File::find_address` and `Commands::find_address` (and, per the spec, by the
`Slices` level), with an explicit fuel bounding the number of iterations.
`rng`, `mn`, `mx` are the child's `get_absolute_range`,
`get_min_abs_address`, `get_max_abs_address`. -/
def binSearchAux {α : Type} (dflt : α) (rng : α → RangeU) (mn mx : α → Nat)
    (children : List α) (addr : Nat) : Nat → Nat → Nat → BinOutcome α
  | 0, _, _ => .exhausted
  | fuel + 1, lo, hi =>
    if lo ≤ hi then
      let mid := (lo + hi) / 2
      let c := children.getD mid dflt
      if (rng c).containsAddr addr then .found mid c
      else if addr < mn c then
        if mid = 0 then .exhausted
        else binSearchAux dflt rng mn mx children addr fuel lo (mid - 1)
      else if mx c < addr then
        binSearchAux dflt rng mn mx children addr fuel (mid + 1) hi
      else .inconsistent (rng c)
    else .exhausted

/-- The loop entered with the interval `[lo, hi]`; `hi + 1 - lo` iterations
always suffice (proved as the termination claim). -/
def binSearch {α : Type} (dflt : α) (rng : α → RangeU) (mn mx : α → Nat)
    (children : List α) (addr : Nat) (lo hi : Nat) : BinOutcome α :=
  binSearchAux dflt rng mn mx children addr (hi + 1 - lo) lo hi

/-! ## Leaf level: `CommandElements` (`src/cmd_elements.rs`) -/

structure CommandElements where
  start_abs_address : Nat
  end_abs_address : Nat
  start_rel_address : Nat
  end_rel_address : Nat
  absolute_range : RangeU
  relative_range : RangeU
  my_ordinal : Nat
deriving DecidableEq, Repr, Inhabited

def CommandElements.get_absolute_range (e : CommandElements) : RangeU :=
  e.absolute_range

def CommandElements.get_min_abs_address (e : CommandElements) : Nat :=
  e.start_abs_address

def CommandElements.get_max_abs_address (e : CommandElements) : Nat :=
  e.end_abs_address

def CommandElements.has_children (_ : CommandElements) : Bool := false

/-- Model of `CommandElements::find_address`: in range ⇒ only the element index
(this node's ordinal) is set; otherwise out-of-scope. -/
def CommandElements.find_address (e : CommandElements) (absolute_address : Nat) :
    Except OffsetLayoutsError Coordinates :=
  let absolute_range := e.get_absolute_range
  if absolute_range.containsAddr absolute_address then
    .ok { Coordinates.new with element := some e.my_ordinal }
  else
    .error (.AddressOutsideCurrentScope absolute_address absolute_range)

/-- Sort key order used by `sort_by_key(|c| c.start_abs_address)`. -/
def elemLe (a b : CommandElements) : Prop :=
  a.start_abs_address ≤ b.start_abs_address

instance : DecidableRel elemLe := fun _ _ => Nat.decLe _ _

instance : IsTotal CommandElements elemLe :=
  ⟨fun a b => Nat.le_total a.start_abs_address b.start_abs_address⟩

instance : IsTrans CommandElements elemLe :=
  ⟨fun _ _ _ h h' => Nat.le_trans h h'⟩

/-! ## `Commands` (`src/commands.rs`) -/

structure Commands where
  start_abs_address : Nat
  end_abs_address : Nat
  start_rel_address : Nat
  end_rel_address : Nat
  absolute_range : RangeU
  relative_range : RangeU
  my_ordinal : Nat
  elements : Option (List CommandElements)
deriving DecidableEq, Repr, Inhabited

def Commands.get_absolute_range (c : Commands) : RangeU :=
  c.absolute_range

def Commands.get_min_abs_address (c : Commands) : Nat :=
  c.start_abs_address

def Commands.get_max_abs_address (c : Commands) : Nat :=
  c.end_abs_address

def Commands.has_children (c : Commands) : Bool :=
  match c.elements with
  | some cmd_elements => decide (0 < cmd_elements.length)
  | none => false

/-- Model of `Commands::sort_children`: in-place stable sort of `elements` by
`start_abs_address`. -/
def Commands.sort_children (c : Commands) : Commands :=
  { c with elements := c.elements.map (List.insertionSort elemLe) }

/-- Model of `Commands::get_children`: sorts, then returns a clone of the children. -/
def Commands.get_children (c : Commands) : Option (List CommandElements) :=
  if c.has_children then c.elements.map (List.insertionSort elemLe) else none

/-- Model of `Commands::find_address`.  Sets the command index (its own ordinal),
binary-searches the sorted elements; on locating a containing element it
recurses and merges the element index if the child reported one; a failing
recursive call is replaced by `CommandIsBroken`; loop exhaustion returns the
accumulated (command-only) coordinates. -/
def Commands.find_address (c : Commands) (absolute_address : Nat) :
    Except OffsetLayoutsError Coordinates :=
  let absolute_range := c.get_absolute_range
  if absolute_range.containsAddr absolute_address then
    let retval : Coordinates := { Coordinates.new with command := some c.my_ordinal }
    if c.has_children then
      match c.get_children with
      | none => .error .InconsistentSearch
      | some children =>
        match binSearch default CommandElements.get_absolute_range
            CommandElements.get_min_abs_address CommandElements.get_max_abs_address
            children absolute_address 0 (children.length - 1) with
        | .found _ child =>
          match child.find_address absolute_address with
          | .ok coords =>
            match coords.element with
            | some e => .ok { retval with element := some e }
            | none => .ok retval
          | .error _ => .error .CommandIsBroken
        | .inconsistent mid_range => .error (.InconsistentStructure absolute_address mid_range)
        | .exhausted => .ok retval
    else
      .ok retval
  else
    .error (.AddressOutsideCurrentScope absolute_address absolute_range)

/-- Sort key order for `Commands` children. -/
def cmdLe (a b : Commands) : Prop :=
  a.start_abs_address ≤ b.start_abs_address

instance : DecidableRel cmdLe := fun _ _ => Nat.decLe _ _

instance : IsTotal Commands cmdLe :=
  ⟨fun a b => Nat.le_total a.start_abs_address b.start_abs_address⟩

instance : IsTrans Commands cmdLe :=
  ⟨fun _ _ _ h h' => Nat.le_trans h h'⟩

/-! ## `Slices`

The file `src/slices.rs` is missing from the provided sources (it is declared
in `lib.rs` and consumed by `file.rs`/`types.rs`), so this level is modelled
from the spec. -/

/-- Modelled from the spec: the `Slices` node type — `src/slices.rs` is
missing.  Per the spec's data model every node shares the same attribute set
(absolute range, relative range, ordinal) and a `Slices` owns zero or more
`Commands`. -/
structure Slices where
  start_abs_address : Nat
  end_abs_address : Nat
  start_rel_address : Nat
  end_rel_address : Nat
  absolute_range : RangeU
  relative_range : RangeU
  my_ordinal : Nat
  commands : Option (List Commands)
deriving DecidableEq, Repr, Inhabited

/-- Modelled from the spec: uniform accessor of the `DiskOffsets` contract
(`src/slices.rs` missing); identical to every other level's implementation. -/
def Slices.get_absolute_range (s : Slices) : RangeU :=
  s.absolute_range

/-- Modelled from the spec: uniform accessor (`src/slices.rs` missing). -/
def Slices.get_min_abs_address (s : Slices) : Nat :=
  s.start_abs_address

/-- Modelled from the spec: uniform accessor (`src/slices.rs` missing). -/
def Slices.get_max_abs_address (s : Slices) : Nat :=
  s.end_abs_address

/-- Modelled from the spec: `has_children` is true iff a children collection
exists and is non-empty (`src/slices.rs` missing). -/
def Slices.has_children (s : Slices) : Bool :=
  match s.commands with
  | some commands => !commands.isEmpty
  | none => false

/-- Modelled from the spec: in-place stable ascending sort of the children by
absolute-range start (`src/slices.rs` missing); the data model identifies the
absolute range's start with `start_abs_address`, the key every present level
sorts by. -/
def Slices.sort_children (s : Slices) : Slices :=
  { s with commands := s.commands.map (List.insertionSort cmdLe) }

/-- Modelled from the spec: sort on demand, then return the children
(`src/slices.rs` missing). -/
def Slices.get_children (s : Slices) : Option (List Commands) :=
  if s.has_children then s.commands.map (List.insertionSort cmdLe) else none

/-- Modelled from the spec: `Slices::find_address` (`src/slices.rs` missing).
Per spec §4.3 the `Slices` and `Commands` levels run the identical
binary-search algorithm; a `Slices` node records the slice index (its own
ordinal), recurses into the containing `Commands` child and merges the
indices the child reports.  Per spec §7 a child that succeeds structurally
but omits the command index it is required to set yields `CommandIsBroken`,
and any failure is returned to the immediate caller as the single typed
error describing the first inconsistency encountered (so a child's own error
is propagated).  Loop exhaustion returns the coarse (slice-only) answer per
spec §4.3 step 4. -/
def Slices.find_address (s : Slices) (absolute_address : Nat) :
    Except OffsetLayoutsError Coordinates :=
  let absolute_range := s.get_absolute_range
  if absolute_range.containsAddr absolute_address then
    let retval : Coordinates := { Coordinates.new with slice := some s.my_ordinal }
    if s.has_children then
      match s.get_children with
      | none => .error .InconsistentSearch
      | some children =>
        match binSearch default Commands.get_absolute_range
            Commands.get_min_abs_address Commands.get_max_abs_address
            children absolute_address 0 (children.length - 1) with
        | .found _ child =>
          match child.find_address absolute_address with
          | .ok coords =>
            match coords.command with
            | some c =>
              .ok { retval with command := some c, element := coords.element }
            | none => .error .CommandIsBroken
          | .error e => .error e
        | .inconsistent mid_range => .error (.InconsistentStructure absolute_address mid_range)
        | .exhausted => .ok retval
    else
      .ok retval
  else
    .error (.AddressOutsideCurrentScope absolute_address absolute_range)

/-- Sort key order for `Slices` children of a `File`
(`file.rs`: `children.sort_by_key(|s| s.start_abs_address)`). -/
def sliceLe (a b : Slices) : Prop :=
  a.start_abs_address ≤ b.start_abs_address

instance : DecidableRel sliceLe := fun _ _ => Nat.decLe _ _

instance : IsTotal Slices sliceLe :=
  ⟨fun a b => Nat.le_total a.start_abs_address b.start_abs_address⟩

instance : IsTrans Slices sliceLe :=
  ⟨fun _ _ _ h h' => Nat.le_trans h h'⟩

/-! ## `File` (root, `src/file.rs`) -/

structure File where
  start_abs_address : Nat
  end_abs_address : Nat
  start_rel_address : Nat
  end_rel_address : Nat
  absolute_range : RangeU
  relative_range : RangeU
  my_ordinal : Nat
  slices : Option (List Slices)
deriving DecidableEq, Repr, Inhabited

/-- Model of `File::with_size`. -/
def File.with_size (file_size : Nat) : File :=
  { start_abs_address := 0
    end_abs_address := file_size
    start_rel_address := 0
    end_rel_address := file_size
    absolute_range := ⟨0, file_size⟩
    relative_range := ⟨0, file_size⟩
    my_ordinal := 0
    slices := none }

def File.get_absolute_range (f : File) : RangeU :=
  f.absolute_range

def File.get_min_abs_address (f : File) : Nat :=
  f.start_abs_address

def File.get_max_abs_address (f : File) : Nat :=
  f.end_abs_address

def File.has_children (f : File) : Bool :=
  match f.slices with
  | some slices => !slices.isEmpty
  | none => false

/-- Model of `File::sort_children`: in-place stable sort of `slices` by
`start_abs_address`. -/
def File.sort_children (f : File) : File :=
  { f with slices := f.slices.map (List.insertionSort sliceLe) }

/-- Model of `File::get_children`: sorts, then returns a clone of the children. -/
def File.get_children (f : File) : Option (List Slices) :=
  if f.has_children then f.slices.map (List.insertionSort sliceLe) else none

/-- Model of `File::find_address`.  The root sets no coordinate of its own; it
binary-searches the sorted slices, recurses into the containing slice and
merges the child's slice (required: its absence, and any child failure, is
`SliceIsBroken`), command and element indices.  Loop exhaustion is
`NotFound`; an empty or absent slices collection is `InconsistentStructure`
over the file's own range. -/
def File.find_address (f : File) (absolute_address : Nat) :
    Except OffsetLayoutsError Coordinates :=
  let absolute_range := f.get_absolute_range
  if absolute_range.containsAddr absolute_address then
    if f.has_children then
      match f.get_children with
      | none => .error .InconsistentSearch
      | some children =>
        match binSearch default Slices.get_absolute_range
            Slices.get_min_abs_address Slices.get_max_abs_address
            children absolute_address 0 (children.length - 1) with
        | .found _ child =>
          match child.find_address absolute_address with
          | .ok coords =>
            match coords.slice with
            | some s =>
              .ok { slice := some s, command := coords.command, element := coords.element }
            | none => .error .SliceIsBroken
          | .error _ => .error .SliceIsBroken
        | .inconsistent range => .error (.InconsistentStructure absolute_address range)
        | .exhausted => .error (.NotFound absolute_address)
    else
      .error (.InconsistentStructure absolute_address absolute_range)
  else
    .error (.AddressOutsideCurrentScope absolute_address absolute_range)

/-! ## Stateful view of `find_address`

In the source `find_address` takes `&mut self`: its only persistent side
effect is the in-place sort performed on this node's own children by
`get_children` (the recursive call operates on a clone of the child —
`self.slices.clone()` / `self.elements.clone()` — so sorting done inside
descendants is discarded).  The sort is reached exactly when the address is
in scope and the node has children. -/

def File.find_addressS (f : File) (absolute_address : Nat) :
    Except OffsetLayoutsError Coordinates × File :=
  (f.find_address absolute_address,
   if (f.get_absolute_range).containsAddr absolute_address && f.has_children then
     f.sort_children
   else f)

def Commands.find_addressS (c : Commands) (absolute_address : Nat) :
    Except OffsetLayoutsError Coordinates × Commands :=
  (c.find_address absolute_address,
   if (c.get_absolute_range).containsAddr absolute_address && c.has_children then
     c.sort_children
   else c)

/-! ## Views over the children collections (verification layer) -/

/-- The children of a `Commands` node, reading an absent collection as empty. -/
def Commands.elemList (c : Commands) : List CommandElements := c.elements.getD []

/-- The children of a `Slices` node, reading an absent collection as empty. -/
def Slices.cmdList (s : Slices) : List Commands := s.commands.getD []

/-- The children of a `File` node, reading an absent collection as empty. -/
def File.sliceList (f : File) : List Slices := f.slices.getD []

/-! ## Well-formed trees

The spec's invariants (§3): every node's stored absolute range is the
half-open interval between its own start/end absolute addresses ("coherent",
established by `populate_values`) and spans at least one byte; each child's
absolute range is contained in its parent's; sibling ranges do not overlap;
builder-assigned ordinals agree with the position in the range-sorted order. -/

/-- Position-consistency of builder-assigned ordinals with the sorted order. -/
abbrev ordinalsConsistent {α : Type} (ordinal : α → Nat) (l : List α) : Prop :=
  ∀ i, (h : i < l.length) → ordinal l[i] = i

/-- Well-formedness of a `Commands` subtree. -/
abbrev Commands.wfTree (c : Commands) : Prop :=
  c.absolute_range = ⟨c.start_abs_address, c.end_abs_address⟩ ∧
  (∀ e ∈ c.elemList,
    e.absolute_range = ⟨e.start_abs_address, e.end_abs_address⟩ ∧
    e.start_abs_address < e.end_abs_address ∧
    c.start_abs_address ≤ e.start_abs_address ∧
    e.end_abs_address ≤ c.end_abs_address) ∧
  c.elemList.Pairwise (fun a b =>
    a.end_abs_address ≤ b.start_abs_address ∨ b.end_abs_address ≤ a.start_abs_address) ∧
  ordinalsConsistent CommandElements.my_ordinal (List.insertionSort elemLe c.elemList)

/-- Well-formedness of a `Slices` subtree. -/
abbrev Slices.wfTree (s : Slices) : Prop :=
  s.absolute_range = ⟨s.start_abs_address, s.end_abs_address⟩ ∧
  (∀ c ∈ s.cmdList,
    c.wfTree ∧
    c.start_abs_address < c.end_abs_address ∧
    s.start_abs_address ≤ c.start_abs_address ∧
    c.end_abs_address ≤ s.end_abs_address) ∧
  s.cmdList.Pairwise (fun a b =>
    a.end_abs_address ≤ b.start_abs_address ∨ b.end_abs_address ≤ a.start_abs_address) ∧
  ordinalsConsistent Commands.my_ordinal (List.insertionSort cmdLe s.cmdList)

/-- Well-formedness of a whole tree rooted at a `File`. -/
abbrev File.wfTree (f : File) : Prop :=
  f.absolute_range = ⟨f.start_abs_address, f.end_abs_address⟩ ∧
  (∀ s ∈ f.sliceList,
    s.wfTree ∧
    s.start_abs_address < s.end_abs_address ∧
    f.start_abs_address ≤ s.start_abs_address ∧
    s.end_abs_address ≤ f.end_abs_address) ∧
  f.sliceList.Pairwise (fun a b =>
    a.end_abs_address ≤ b.start_abs_address ∨ b.end_abs_address ≤ a.start_abs_address) ∧
  ordinalsConsistent Slices.my_ordinal (List.insertionSort sliceLe f.sliceList)

/-- The address is not the exclusive end of any element of a `Commands` node. -/
abbrev Commands.avoidsEnds (c : Commands) (addr : Nat) : Prop :=
  ∀ e ∈ c.elemList, addr ≠ e.end_abs_address

/-- The address is not the exclusive end of any node below a `Slices` node. -/
abbrev Slices.avoidsEnds (s : Slices) (addr : Nat) : Prop :=
  ∀ c ∈ s.cmdList, addr ≠ c.end_abs_address ∧ c.avoidsEnds addr

/-- The address is not the exclusive end of any node below the root. -/
abbrev File.avoidsEnds (f : File) (addr : Nat) : Prop :=
  ∀ s ∈ f.sliceList, addr ≠ s.end_abs_address ∧ s.avoidsEnds addr

/-- Model of `CommandElements::sort_children` — by definition, an element has no
children, so this is a no-op. -/
def CommandElements.sort_children (e : CommandElements) : CommandElements := e

/-! ## Instrumented binary-search loop (for the safety claim)

Identical to `binSearchAux`, additionally accumulating a flag that records,
at every iteration, that the probed index is within the array's bounds, and,
at every `end = mid - 1` assignment, that `1 ≤ mid` (so the unsigned
subtraction cannot underflow). -/

def binSearchChkAux {α : Type} (dflt : α) (rng : α → RangeU) (mn mx : α → Nat)
    (children : List α) (addr : Nat) : Nat → Nat → Nat → BinOutcome α × Bool
  | 0, _, _ => (.exhausted, true)
  | fuel + 1, lo, hi =>
    if lo ≤ hi then
      let mid := (lo + hi) / 2
      let inBounds := decide (mid < children.length)
      let c := children.getD mid dflt
      if (rng c).containsAddr addr then (.found mid c, inBounds)
      else if addr < mn c then
        if mid = 0 then (.exhausted, inBounds)
        else
          let r := binSearchChkAux dflt rng mn mx children addr fuel lo (mid - 1)
          (r.1, inBounds && decide (1 ≤ mid) && r.2)
      else if mx c < addr then
        let r := binSearchChkAux dflt rng mn mx children addr fuel (mid + 1) hi
        (r.1, inBounds && r.2)
      else (.inconsistent (rng c), inBounds)
    else (.exhausted, true)

/-- The instrumented loop entered with the interval `[lo, hi]`. -/
def binSearchChk {α : Type} (dflt : α) (rng : α → RangeU) (mn mx : α → Nat)
    (children : List α) (addr : Nat) (lo hi : Nat) : BinOutcome α × Bool :=
  binSearchChkAux dflt rng mn mx children addr (hi + 1 - lo) lo hi

/-! ## Concrete trees used as witnesses and counterexamples -/

/-- A leaf with absolute range `[s, e)` and ordinal `o` (relative fields as
`populate_values` would set them for a child starting at its parent). -/
def exElem (s e o : Nat) : CommandElements :=
  { start_abs_address := s, end_abs_address := e,
    start_rel_address := 0, end_rel_address := e - s,
    absolute_range := ⟨s, e⟩, relative_range := ⟨0, e - s⟩, my_ordinal := o }

/-- A `Commands` node with absolute range `[s, e)`, ordinal `o`, children `es`. -/
def exCmd (s e o : Nat) (es : List CommandElements) : Commands :=
  { start_abs_address := s, end_abs_address := e,
    start_rel_address := 0, end_rel_address := e - s,
    absolute_range := ⟨s, e⟩, relative_range := ⟨0, e - s⟩, my_ordinal := o,
    elements := some es }

/-- A `Slices` node with absolute range `[s, e)`, ordinal `o`, children `cs`. -/
def exSlice (s e o : Nat) (cs : List Commands) : Slices :=
  { start_abs_address := s, end_abs_address := e,
    start_rel_address := 0, end_rel_address := e - s,
    absolute_range := ⟨s, e⟩, relative_range := ⟨0, e - s⟩, my_ordinal := o,
    commands := some cs }

/-- A root `File` of the given size owning the given slices. -/
def exFile (sz : Nat) (ss : List Slices) : File :=
  { File.with_size sz with slices := some ss }

/-- Two adjacent slices `[0,5)` and `[5,10)`, each with one command and one
element filling it: a well-formed tree on which the shared-boundary address
`5` (contained in the second slice's leaf) is probed at the first slice. -/
def slC1a : Slices := exSlice 0 5 0 [exCmd 0 5 0 [exElem 0 5 0]]

def slC1b : Slices := exSlice 5 10 1 [exCmd 5 10 0 [exElem 5 10 0]]

def fileC1x : File := exFile 10 [slC1a, slC1b]

/-- The spec's end-to-end scenario: file of size 1024, one slice `[0,512)`,
one command `[100,200)`, one element `[150,180)`. -/
def elW1 : CommandElements := exElem 150 180 0

def cmdW1 : Commands := exCmd 100 200 0 [elW1]

def slW1 : Slices := exSlice 0 512 0 [cmdW1]

def fileW1 : File := exFile 1024 [slW1]

/-- The gap scenario of the spec: root `[0,30)` with slices `[0,10)` and
`[20,30)`. -/
def fileC2x : File := exFile 30 [exSlice 0 10 0 [], exSlice 20 30 1 []]

/-- A slice `[0,10)` whose only command covers `[0,5)`: querying address `5`
makes the slice's own search fail with `InconsistentStructure`. -/
def slC3 : Slices := exSlice 0 10 0 [exCmd 0 5 0 []]

def fileC3x : File := exFile 10 [slC3]

def fileC4w : File := exFile 30 [exSlice 0 10 0 [], exSlice 20 30 1 []]

def fileC5w : File := exFile 30 []

def cmdC5w : Commands := exCmd 10 20 0 []

def elC5w : CommandElements := exElem 10 20 0

def slC6a : Slices := exSlice 0 10 0 []

def slC6b : Slices := exSlice 20 30 1 []

/-- A file whose slices are registered out of order. -/
def fileC6w : File := exFile 30 [slC6b, slC6a]

def fileC7w : File := exFile 30 [slC6b, slC6a]

def cmdC10w : Commands := exCmd 0 30 0 []

/-! ## Generic properties of the binary-search loop -/

section BinSearchLemmas

variable {α : Type} (dflt : α) (rng : α → RangeU) (mn mx : α → Nat)

/-- The loop's result does not depend on the fuel once the fuel covers the
size of the search interval: the loop terminates within `hi + 1 - lo`
iterations. -/
theorem binSearchAux_fuel_congr (children : List α) (addr : Nat) :
    ∀ fuel fuel' lo hi, hi + 1 - lo ≤ fuel → hi + 1 - lo ≤ fuel' →
      binSearchAux dflt rng mn mx children addr fuel lo hi =
      binSearchAux dflt rng mn mx children addr fuel' lo hi := by
  intro fuel
  induction fuel with
  | zero =>
    intro fuel' lo hi h _
    cases fuel' with
    | zero => rfl
    | succ m => simp only [binSearchAux]; rw [if_neg (by omega)]
  | succ n ih =>
    intro fuel' lo hi h h'
    cases fuel' with
    | zero => simp only [binSearchAux]; rw [if_neg (by omega)]
    | succ m =>
      simp only [binSearchAux]
      by_cases hlh : lo ≤ hi
      · rw [if_pos hlh, if_pos hlh]
        have hmid1 : lo ≤ (lo + hi) / 2 := by omega
        have hmid2 : (lo + hi) / 2 ≤ hi := by omega
        by_cases hc : (rng (children.getD ((lo + hi) / 2) dflt)).containsAddr addr
        · simp only [hc, if_pos]
        · simp only [hc, Bool.false_eq_true, if_false]
          by_cases hlt : addr < mn (children.getD ((lo + hi) / 2) dflt)
          · rw [if_pos hlt, if_pos hlt]
            by_cases hz : (lo + hi) / 2 = 0
            · rw [if_pos hz, if_pos hz]
            · rw [if_neg hz, if_neg hz]
              exact ih m lo ((lo + hi) / 2 - 1) (by omega) (by omega)
          · rw [if_neg hlt, if_neg hlt]
            by_cases hgt : mx (children.getD ((lo + hi) / 2) dflt) < addr
            · rw [if_pos hgt, if_pos hgt]
              exact ih m ((lo + hi) / 2 + 1) hi (by omega) (by omega)
            · rw [if_neg hgt, if_neg hgt]
      · rw [if_neg hlh, if_neg hlh]

/-- Any sufficient fuel computes exactly `binSearch`. -/
theorem binSearchAux_eq_binSearch (children : List α) (addr : Nat)
    (fuel lo hi : Nat) (h : hi + 1 - lo ≤ fuel) :
    binSearchAux dflt rng mn mx children addr fuel lo hi =
    binSearch dflt rng mn mx children addr lo hi :=
  binSearchAux_fuel_congr dflt rng mn mx children addr fuel (hi + 1 - lo) lo hi h
    (Nat.le_refl _)

/-- A `found` outcome is only produced for a probe whose range contains the
address, and the reported child is the probed entry of the array. -/
theorem binSearchAux_found (children : List α) (addr : Nat) :
    ∀ fuel lo hi i c,
      binSearchAux dflt rng mn mx children addr fuel lo hi = .found i c →
      (rng c).containsAddr addr = true ∧ c = children.getD i dflt ∧ lo ≤ i ∧ i ≤ hi := by
  intro fuel
  induction fuel with
  | zero => intro lo hi i c h; simp only [binSearchAux] at h; cases h
  | succ n ih =>
    intro lo hi i c h
    simp only [binSearchAux] at h
    by_cases hlh : lo ≤ hi
    · rw [if_pos hlh] at h
      have hmid1 : lo ≤ (lo + hi) / 2 := by omega
      have hmid2 : (lo + hi) / 2 ≤ hi := by omega
      by_cases hc : (rng (children.getD ((lo + hi) / 2) dflt)).containsAddr addr
      · simp only [hc, if_pos] at h
        cases h
        exact ⟨hc, rfl, hmid1, hmid2⟩
      · simp only [hc, Bool.false_eq_true, if_false] at h
        by_cases hlt : addr < mn (children.getD ((lo + hi) / 2) dflt)
        · rw [if_pos hlt] at h
          by_cases hz : (lo + hi) / 2 = 0
          · rw [if_pos hz] at h; cases h
          · rw [if_neg hz] at h
            obtain ⟨h1, h2, h3, h4⟩ := ih lo ((lo + hi) / 2 - 1) i c h
            exact ⟨h1, h2, h3, by omega⟩
        · rw [if_neg hlt] at h
          by_cases hgt : mx (children.getD ((lo + hi) / 2) dflt) < addr
          · rw [if_pos hgt] at h
            obtain ⟨h1, h2, h3, h4⟩ := ih ((lo + hi) / 2 + 1) hi i c h
            exact ⟨h1, h2, by omega, h4⟩
          · rw [if_neg hgt] at h; cases h
    · rw [if_neg hlh] at h; cases h

/-- Search correctness: over a list of coherent (`rng c = [mn c, mx c)`),
nonempty, start-sorted, pairwise-disjoint children, if entry `k` of the
interval `[lo, hi]` contains the address and the address is not the
exclusive end of any child, the loop returns exactly entry `k`. -/
theorem binSearchAux_finds (children : List α) (addr : Nat)
    (hco : ∀ c ∈ children, rng c = ⟨mn c, mx c⟩ ∧ mn c < mx c)
    (hsort : children.Pairwise (fun a b => mn a ≤ mn b))
    (hdis : children.Pairwise (fun a b => mx a ≤ mn b ∨ mx b ≤ mn a))
    (hne : ∀ c ∈ children, addr ≠ mx c) :
    ∀ fuel lo hi k, k < children.length →
      hi + 1 - lo ≤ fuel → lo ≤ k → k ≤ hi → hi < children.length →
      mn (children.getD k dflt) ≤ addr → addr < mx (children.getD k dflt) →
      binSearchAux dflt rng mn mx children addr fuel lo hi =
        .found k (children.getD k dflt) := by
  have hgetD : ∀ (i : Nat), i < children.length → children.getD i dflt ∈ children := by
    intro i h
    rw [List.getD_eq_getElem?_getD, List.getElem?_eq_getElem h]
    exact List.getElem_mem h
  have hsort' := List.pairwise_iff_getElem.mp hsort
  have hdis' := List.pairwise_iff_getElem.mp hdis
  have horder : ∀ i j, (_ : i < children.length) → (_ : j < children.length) → i < j →
      mx (children.getD i dflt) ≤ mn (children.getD j dflt) := by
    intro i j hi hj hij
    have hgi : children.getD i dflt = children[i] := by
      rw [List.getD_eq_getElem?_getD, List.getElem?_eq_getElem hi]; rfl
    have hgj : children.getD j dflt = children[j] := by
      rw [List.getD_eq_getElem?_getD, List.getElem?_eq_getElem hj]; rfl
    have hd := hdis' i j hi hj hij
    have hs := hsort' i j hi hj hij
    have hne_i := (hco children[i] (List.getElem_mem hi)).2
    have hne_j := (hco children[j] (List.getElem_mem hj)).2
    rw [hgi, hgj]
    rcases hd with h | h
    · exact h
    · omega
  have hmono : ∀ i j, (_ : i < children.length) → (_ : j < children.length) → i < j →
      mn (children.getD i dflt) ≤ mn (children.getD j dflt) := by
    intro i j hi hj hij
    have hgi : children.getD i dflt = children[i] := by
      rw [List.getD_eq_getElem?_getD, List.getElem?_eq_getElem hi]; rfl
    have hgj : children.getD j dflt = children[j] := by
      rw [List.getD_eq_getElem?_getD, List.getElem?_eq_getElem hj]; rfl
    rw [hgi, hgj]
    exact hsort' i j hi hj hij
  intro fuel
  induction fuel with
  | zero => intro lo hi k hk hfuel hlok hkhi hhil _ _; omega
  | succ n ih =>
    intro lo hi k hk hfuel hlok hkhi hhil hmnk hmxk
    have hlh : lo ≤ hi := Nat.le_trans hlok hkhi
    simp only [binSearchAux, if_pos hlh]
    have hmid1 : lo ≤ (lo + hi) / 2 := by omega
    have hmid2 : (lo + hi) / 2 ≤ hi := by omega
    have hmidlen : (lo + hi) / 2 < children.length := Nat.lt_of_le_of_lt hmid2 hhil
    set mid := (lo + hi) / 2 with hmid_def
    have hmemmid := hgetD mid hmidlen
    obtain ⟨hrng_mid, hne_mid⟩ := hco _ hmemmid
    by_cases hc : (rng (children.getD mid dflt)).containsAddr addr
    · -- the probed child contains the address: it must be entry k
      have hcm : mn (children.getD mid dflt) ≤ addr ∧
          addr < mx (children.getD mid dflt) := by
        rw [hrng_mid] at hc
        simpa [RangeU.containsAddr] using hc
      have hmidk : mid = k := by
        rcases Nat.lt_trichotomy mid k with h | h | h
        · have := horder mid k hmidlen hk h; omega
        · exact h
        · have := horder k mid hk hmidlen h; omega
      rw [hmidk] at hc
      rw [hmidk, if_pos hc]
    · simp only [hc, Bool.false_eq_true, if_false]
      by_cases hlt : addr < mn (children.getD mid dflt)
      · -- the address is below the probe: k is strictly to the left
        have hkmid : k < mid := by
          rcases Nat.lt_trichotomy k mid with h | h | h
          · exact h
          · rw [h] at hmnk; omega
          · have := hmono mid k hmidlen hk h; omega
        rw [if_pos hlt, if_neg (by omega : ¬mid = 0)]
        exact ih lo (mid - 1) k hk (by omega) hlok (by omega) (by omega) hmnk hmxk
      · rw [if_neg hlt]
        by_cases hgt : mx (children.getD mid dflt) < addr
        · -- the address is above the probe: k is strictly to the right
          have hkmid : mid < k := by
            rcases Nat.lt_trichotomy k mid with h | h | h
            · have := horder k mid hk hmidlen h; omega
            · rw [h] at hmxk; omega
            · exact h
          rw [if_pos hgt]
          exact ih (mid + 1) hi k hk (by omega) (by omega) hkhi hhil hmnk hmxk
        · -- remaining case: the address equals the probe's exclusive end
          exfalso
          have : addr = mx (children.getD mid dflt) := by
            rw [hrng_mid] at hc
            simp only [RangeU.containsAddr, Bool.and_eq_true, decide_eq_true_eq,
              not_and, Classical.not_imp] at hc
            omega
          exact hne _ hmemmid this

/-- Exhaustion: if no child's range contains the address and every child
routes the probe strictly left or right (never the `addr = max` defect
case), the loop exhausts its interval. -/
theorem binSearchAux_exhausts (children : List α) (addr : Nat)
    (hmiss : ∀ c ∈ children, (rng c).containsAddr addr = false ∧
      (addr < mn c ∨ mx c < addr)) :
    ∀ fuel lo hi, hi + 1 - lo ≤ fuel → hi < children.length →
      binSearchAux dflt rng mn mx children addr fuel lo hi = .exhausted := by
  have hgetD : ∀ (i : Nat), i < children.length → children.getD i dflt ∈ children := by
    intro i h
    rw [List.getD_eq_getElem?_getD, List.getElem?_eq_getElem h]
    exact List.getElem_mem h
  intro fuel
  induction fuel with
  | zero => intro lo hi _ _; rfl
  | succ n ih =>
    intro lo hi hfuel hhil
    by_cases hlh : lo ≤ hi
    · simp only [binSearchAux, if_pos hlh]
      have hmid2 : (lo + hi) / 2 ≤ hi := by omega
      set mid := (lo + hi) / 2 with hmid_def
      have hmem := hgetD mid (Nat.lt_of_le_of_lt hmid2 hhil)
      obtain ⟨hcf, hdir⟩ := hmiss _ hmem
      rw [hcf]
      simp only [Bool.false_eq_true, if_false]
      by_cases hlt : addr < mn (children.getD mid dflt)
      · rw [if_pos hlt]
        by_cases hz : mid = 0
        · rw [if_pos hz]
        · rw [if_neg hz]
          exact ih lo (mid - 1) (by omega) (by omega)
      · rw [if_neg hlt]
        have hgt : mx (children.getD mid dflt) < addr := by
          rcases hdir with h | h
          · exact absurd h hlt
          · exact h
        rw [if_pos hgt]
        exact ih (mid + 1) hi (by omega) hhil
    · simp only [binSearchAux, if_neg hlh]

end BinSearchLemmas

/-! ## Basic facts about the children collections -/

theorem RangeU.containsAddr_iff {r : RangeU} {a : Nat} :
    r.containsAddr a = true ↔ r.rstart ≤ a ∧ a < r.rend := by
  simp [RangeU.containsAddr]

theorem commands_has_children_iff {c : Commands} :
    c.has_children = true ↔ c.elemList ≠ [] := by
  cases h : c.elements <;>
    simp [Commands.has_children, Commands.elemList, h, List.length_pos]

theorem slices_has_children_iff {s : Slices} :
    s.has_children = true ↔ s.cmdList ≠ [] := by
  cases h : s.commands <;>
    simp [Slices.has_children, Slices.cmdList, h, List.isEmpty_iff]

theorem file_has_children_iff {f : File} :
    f.has_children = true ↔ f.sliceList ≠ [] := by
  cases h : f.slices <;>
    simp [File.has_children, File.sliceList, h, List.isEmpty_iff]

theorem commands_get_children_eq {c : Commands} (h : c.has_children = true) :
    c.get_children = some (List.insertionSort elemLe c.elemList) := by
  cases hl : c.elements with
  | none => rw [commands_has_children_iff] at h; simp [Commands.elemList, hl] at h
  | some l => simp [Commands.get_children, h, hl, Commands.elemList]

theorem slices_get_children_eq {s : Slices} (h : s.has_children = true) :
    s.get_children = some (List.insertionSort cmdLe s.cmdList) := by
  cases hl : s.commands with
  | none => rw [slices_has_children_iff] at h; simp [Slices.cmdList, hl] at h
  | some l => simp [Slices.get_children, h, hl, Slices.cmdList]

theorem file_get_children_eq {f : File} (h : f.has_children = true) :
    f.get_children = some (List.insertionSort sliceLe f.sliceList) := by
  cases hl : f.slices with
  | none => rw [file_has_children_iff] at h; simp [File.sliceList, hl] at h
  | some l => simp [File.get_children, h, hl, File.sliceList]

/-! ## Chain correctness of `find_address`, level by level -/

/-- On a well-formed `Commands` subtree, `find_address` resolves an address
lying in element `e` (and distinct from every element's exclusive end) to
the command's own ordinal plus `e`'s ordinal. -/
theorem commands_find_address_chain (c : Commands) (addr : Nat) (e : CommandElements)
    (hwf : c.wfTree) (he : e ∈ c.elemList)
    (ha1 : e.start_abs_address ≤ addr) (ha2 : addr < e.end_abs_address)
    (hav : c.avoidsEnds addr) :
    c.find_address addr =
      .ok { slice := none, command := some c.my_ordinal, element := some e.my_ordinal } := by
  obtain ⟨hcoh, hch, hdis, _⟩ := hwf
  obtain ⟨hce, hne_e, hlo_e, hhi_e⟩ := hch e he
  have hhc : c.has_children = true :=
    commands_has_children_iff.mpr (by intro h; rw [h] at he; cases he)
  have hcont : (c.get_absolute_range).containsAddr addr = true := by
    rw [Commands.get_absolute_range, hcoh, RangeU.containsAddr_iff]
    show c.start_abs_address ≤ addr ∧ addr < c.end_abs_address
    exact ⟨by omega, by omega⟩
  set sorted := List.insertionSort elemLe c.elemList with hsorted
  obtain ⟨k, hk, hek⟩ := List.getElem_of_mem ((List.mem_insertionSort elemLe).mpr he)
  have hgd : sorted.getD k default = e := by
    rw [List.getD_eq_getElem?_getD, List.getElem?_eq_getElem hk]
    simpa using hek
  have hco : ∀ x ∈ sorted, x.get_absolute_range =
      ⟨x.get_min_abs_address, x.get_max_abs_address⟩ ∧
      x.get_min_abs_address < x.get_max_abs_address := by
    intro x hx
    obtain ⟨h1, h2, _, _⟩ := hch x ((List.mem_insertionSort elemLe).mp hx)
    exact ⟨h1, h2⟩
  have hsort : sorted.Pairwise (fun a b =>
      a.get_min_abs_address ≤ b.get_min_abs_address) :=
    (List.sorted_insertionSort elemLe c.elemList).imp (fun h => h)
  have hdis' : sorted.Pairwise (fun a b =>
      a.get_max_abs_address ≤ b.get_min_abs_address ∨
      b.get_max_abs_address ≤ a.get_min_abs_address) :=
    ((List.perm_insertionSort elemLe c.elemList).pairwise_iff
      (fun h => Or.symm h)).mpr hdis
  have hne : ∀ x ∈ sorted, addr ≠ x.get_max_abs_address := by
    intro x hx
    exact hav x ((List.mem_insertionSort elemLe).mp hx)
  have hfound := binSearchAux_finds default CommandElements.get_absolute_range
    CommandElements.get_min_abs_address CommandElements.get_max_abs_address sorted addr
    hco hsort hdis' hne (sorted.length - 1 + 1 - 0) 0 (sorted.length - 1) k hk
    (Nat.le_refl _) (Nat.zero_le _) (Nat.le_pred_of_lt hk)
    (Nat.sub_lt (Nat.lt_of_le_of_lt (Nat.zero_le _) hk) Nat.one_pos)
    (by rw [hgd]; exact ha1) (by rw [hgd]; exact ha2)
  have hefind : e.find_address addr =
      .ok { Coordinates.new with element := some e.my_ordinal } := by
    have hce' : (e.get_absolute_range).containsAddr addr = true := by
      rw [CommandElements.get_absolute_range, hce, RangeU.containsAddr_iff]
      exact ⟨ha1, ha2⟩
    simp [CommandElements.find_address, hce']
  rw [hgd] at hfound
  simp only [Commands.find_address, hcont, if_true, hhc, commands_get_children_eq hhc,
    binSearch, ← hsorted, hfound, hefind]
  rfl

/-- On a well-formed `Slices` subtree, `find_address` resolves an address
lying in element `e` of command `cmd` to the slice's, command's and
element's ordinals. -/
theorem slices_find_address_chain (s : Slices) (addr : Nat)
    (cmd : Commands) (e : CommandElements)
    (hwf : s.wfTree) (hc : cmd ∈ s.cmdList) (he : e ∈ cmd.elemList)
    (ha1 : e.start_abs_address ≤ addr) (ha2 : addr < e.end_abs_address)
    (hav : s.avoidsEnds addr) :
    s.find_address addr =
      .ok { slice := some s.my_ordinal, command := some cmd.my_ordinal,
            element := some e.my_ordinal } := by
  obtain ⟨hcoh, hch, hdis, _⟩ := hwf
  obtain ⟨hcwf, hne_c, hlo_c, hhi_c⟩ := hch cmd hc
  have hin_c : cmd.start_abs_address ≤ addr ∧ addr < cmd.end_abs_address := by
    obtain ⟨_, hce⟩ := hcwf
    obtain ⟨_, _, h1, h2⟩ := hce.1 e he
    exact ⟨by omega, by omega⟩
  have hhc : s.has_children = true :=
    slices_has_children_iff.mpr (by intro h; rw [h] at hc; cases hc)
  have hcont : (s.get_absolute_range).containsAddr addr = true := by
    rw [Slices.get_absolute_range, hcoh, RangeU.containsAddr_iff]
    show s.start_abs_address ≤ addr ∧ addr < s.end_abs_address
    exact ⟨by omega, by omega⟩
  set sorted := List.insertionSort cmdLe s.cmdList with hsorted
  obtain ⟨k, hk, hek⟩ := List.getElem_of_mem ((List.mem_insertionSort cmdLe).mpr hc)
  have hgd : sorted.getD k default = cmd := by
    rw [List.getD_eq_getElem?_getD, List.getElem?_eq_getElem hk]
    simpa using hek
  have hco : ∀ x ∈ sorted, x.get_absolute_range =
      ⟨x.get_min_abs_address, x.get_max_abs_address⟩ ∧
      x.get_min_abs_address < x.get_max_abs_address := by
    intro x hx
    obtain ⟨hxwf, h2, _, _⟩ := hch x ((List.mem_insertionSort cmdLe).mp hx)
    exact ⟨hxwf.1, h2⟩
  have hsort : sorted.Pairwise (fun a b =>
      a.get_min_abs_address ≤ b.get_min_abs_address) :=
    (List.sorted_insertionSort cmdLe s.cmdList).imp (fun h => h)
  have hdis' : sorted.Pairwise (fun a b =>
      a.get_max_abs_address ≤ b.get_min_abs_address ∨
      b.get_max_abs_address ≤ a.get_min_abs_address) :=
    ((List.perm_insertionSort cmdLe s.cmdList).pairwise_iff
      (fun h => Or.symm h)).mpr hdis
  have hne : ∀ x ∈ sorted, addr ≠ x.get_max_abs_address := by
    intro x hx
    exact (hav x ((List.mem_insertionSort cmdLe).mp hx)).1
  have hfound := binSearchAux_finds default Commands.get_absolute_range
    Commands.get_min_abs_address Commands.get_max_abs_address sorted addr
    hco hsort hdis' hne (sorted.length - 1 + 1 - 0) 0 (sorted.length - 1) k hk
    (Nat.le_refl _) (Nat.zero_le _) (Nat.le_pred_of_lt hk)
    (Nat.sub_lt (Nat.lt_of_le_of_lt (Nat.zero_le _) hk) Nat.one_pos)
    (by rw [hgd]; exact hin_c.1) (by rw [hgd]; exact hin_c.2)
  have hcfind := commands_find_address_chain cmd addr e hcwf he ha1 ha2
    (hav cmd hc).2
  rw [hgd] at hfound
  simp only [Slices.find_address, hcont, if_true, hhc, slices_get_children_eq hhc,
    binSearch, ← hsorted, hfound, hcfind]

/-- On a well-formed tree, `File::find_address` resolves an address lying in
leaf `e` of command `cmd` of slice `sl` (and distinct from every node's
exclusive range end) to the ordinals of that chain. -/
theorem file_find_address_chain (f : File) (addr : Nat)
    (sl : Slices) (cmd : Commands) (e : CommandElements)
    (hwf : f.wfTree) (hs : sl ∈ f.sliceList) (hc : cmd ∈ sl.cmdList)
    (he : e ∈ cmd.elemList)
    (ha1 : e.start_abs_address ≤ addr) (ha2 : addr < e.end_abs_address)
    (hav : f.avoidsEnds addr) :
    f.find_address addr =
      .ok { slice := some sl.my_ordinal, command := some cmd.my_ordinal,
            element := some e.my_ordinal } := by
  obtain ⟨hcoh, hch, hdis, _⟩ := hwf
  obtain ⟨hswf, hne_s, hlo_s, hhi_s⟩ := hch sl hs
  have hin_s : sl.start_abs_address ≤ addr ∧ addr < sl.end_abs_address := by
    obtain ⟨_, hse, _, _⟩ := hswf
    obtain ⟨hcwf, _, h1, h2⟩ := hse cmd hc
    obtain ⟨_, hce, _, _⟩ := hcwf
    obtain ⟨_, _, h3, h4⟩ := hce e he
    exact ⟨by omega, by omega⟩
  have hhc : f.has_children = true :=
    file_has_children_iff.mpr (by intro h; rw [h] at hs; cases hs)
  have hcont : (f.get_absolute_range).containsAddr addr = true := by
    rw [File.get_absolute_range, hcoh, RangeU.containsAddr_iff]
    show f.start_abs_address ≤ addr ∧ addr < f.end_abs_address
    exact ⟨by omega, by omega⟩
  set sorted := List.insertionSort sliceLe f.sliceList with hsorted
  obtain ⟨k, hk, hek⟩ := List.getElem_of_mem ((List.mem_insertionSort sliceLe).mpr hs)
  have hgd : sorted.getD k default = sl := by
    rw [List.getD_eq_getElem?_getD, List.getElem?_eq_getElem hk]
    simpa using hek
  have hco : ∀ x ∈ sorted, x.get_absolute_range =
      ⟨x.get_min_abs_address, x.get_max_abs_address⟩ ∧
      x.get_min_abs_address < x.get_max_abs_address := by
    intro x hx
    obtain ⟨hxwf, h2, _, _⟩ := hch x ((List.mem_insertionSort sliceLe).mp hx)
    exact ⟨hxwf.1, h2⟩
  have hsort : sorted.Pairwise (fun a b =>
      a.get_min_abs_address ≤ b.get_min_abs_address) :=
    (List.sorted_insertionSort sliceLe f.sliceList).imp (fun h => h)
  have hdis' : sorted.Pairwise (fun a b =>
      a.get_max_abs_address ≤ b.get_min_abs_address ∨
      b.get_max_abs_address ≤ a.get_min_abs_address) :=
    ((List.perm_insertionSort sliceLe f.sliceList).pairwise_iff
      (fun h => Or.symm h)).mpr hdis
  have hne : ∀ x ∈ sorted, addr ≠ x.get_max_abs_address := by
    intro x hx
    exact (hav x ((List.mem_insertionSort sliceLe).mp hx)).1
  have hfound := binSearchAux_finds default Slices.get_absolute_range
    Slices.get_min_abs_address Slices.get_max_abs_address sorted addr
    hco hsort hdis' hne (sorted.length - 1 + 1 - 0) 0 (sorted.length - 1) k hk
    (Nat.le_refl _) (Nat.zero_le _) (Nat.le_pred_of_lt hk)
    (Nat.sub_lt (Nat.lt_of_le_of_lt (Nat.zero_le _) hk) Nat.one_pos)
    (by rw [hgd]; exact hin_s.1) (by rw [hgd]; exact hin_s.2)
  have hsfind := slices_find_address_chain sl addr cmd e hswf hc he ha1 ha2
    (hav sl hs).2
  rw [hgd] at hfound
  simp only [File.find_address, hcont, if_true, hhc, file_get_children_eq hhc,
    binSearch, ← hsorted, hfound, hsfind]

/-! ## The instrumented loop computes the plain loop with a clean safety flag -/

theorem binSearchChkAux_safe {α : Type} (dflt : α) (rng : α → RangeU) (mn mx : α → Nat)
    (children : List α) (addr : Nat) :
    ∀ fuel lo hi, hi < children.length →
      binSearchChkAux dflt rng mn mx children addr fuel lo hi =
        (binSearchAux dflt rng mn mx children addr fuel lo hi, true) := by
  intro fuel
  induction fuel with
  | zero => intro lo hi _; rfl
  | succ n ih =>
    intro lo hi hhil
    simp only [binSearchChkAux, binSearchAux]
    by_cases hlh : lo ≤ hi
    · rw [if_pos hlh, if_pos hlh]
      have hmidlen : (lo + hi) / 2 < children.length := by omega
      have hib : decide ((lo + hi) / 2 < children.length) = true :=
        decide_eq_true hmidlen
      by_cases hc : (rng (children.getD ((lo + hi) / 2) dflt)).containsAddr addr
      · simp only [hc, if_pos, hib]
      · simp only [hc, Bool.false_eq_true, if_false]
        by_cases hlt : addr < mn (children.getD ((lo + hi) / 2) dflt)
        · rw [if_pos hlt, if_pos hlt]
          by_cases hz : (lo + hi) / 2 = 0
          · rw [if_pos hz, if_pos hz, hib]
          · rw [if_neg hz, if_neg hz, ih lo ((lo + hi) / 2 - 1) (by omega), hib,
              decide_eq_true (by omega : 1 ≤ (lo + hi) / 2)]
            rfl
        · rw [if_neg hlt, if_neg hlt]
          by_cases hgt : mx (children.getD ((lo + hi) / 2) dflt) < addr
          · rw [if_pos hgt, if_pos hgt, ih ((lo + hi) / 2 + 1) hi (by omega), hib]
            rfl
          · rw [if_neg hgt, if_neg hgt, hib]
    · rw [if_neg hlh, if_neg hlh]

/-! ## The lazy sort inside `find_address` is idempotent -/

theorem isEmpty_insertionSort {α : Type} (r : α → α → Prop) [DecidableRel r]
    (l : List α) : (List.insertionSort r l).isEmpty = l.isEmpty := by
  cases l with
  | nil => rfl
  | cons a t =>
    simp only [List.insertionSort]
    cases h : List.insertionSort r t with
    | nil => rfl
    | cons b u => by_cases hr : r a b <;> simp [List.orderedInsert, hr]

theorem file_has_children_sort (f : File) :
    (f.sort_children).has_children = f.has_children := by
  cases hl : f.slices with
  | none => simp [File.sort_children, File.has_children, hl]
  | some l =>
    simp [File.sort_children, File.has_children, hl, isEmpty_insertionSort]

theorem file_get_children_sort (f : File) :
    (f.sort_children).get_children = f.get_children := by
  unfold File.get_children
  rw [file_has_children_sort]
  by_cases h : f.has_children
  · rw [if_pos h, if_pos h]
    cases hl : f.slices with
    | none => simp [File.sort_children, hl]
    | some l =>
      simp [File.sort_children, hl,
        List.Sorted.insertionSort_eq (List.sorted_insertionSort sliceLe l)]
  · rw [if_neg h, if_neg h]

theorem file_find_address_sort (f : File) (addr : Nat) :
    (f.sort_children).find_address addr = f.find_address addr := by
  unfold File.find_address
  rw [show (f.sort_children).get_absolute_range = f.get_absolute_range from rfl,
    file_has_children_sort, file_get_children_sort]

theorem commands_has_children_sort (c : Commands) :
    (c.sort_children).has_children = c.has_children := by
  cases hl : c.elements with
  | none => simp [Commands.sort_children, Commands.has_children, hl]
  | some l => simp [Commands.sort_children, Commands.has_children, hl]

theorem commands_get_children_sort (c : Commands) :
    (c.sort_children).get_children = c.get_children := by
  unfold Commands.get_children
  rw [commands_has_children_sort]
  by_cases h : c.has_children
  · rw [if_pos h, if_pos h]
    cases hl : c.elements with
    | none => simp [Commands.sort_children, hl]
    | some l =>
      simp [Commands.sort_children, hl,
        List.Sorted.insertionSort_eq (List.sorted_insertionSort elemLe l)]
  · rw [if_neg h, if_neg h]

theorem commands_find_address_sort (c : Commands) (addr : Nat) :
    (c.sort_children).find_address addr = c.find_address addr := by
  unfold Commands.find_address
  rw [show (c.sort_children).get_absolute_range = c.get_absolute_range from rfl,
    show (c.sort_children).my_ordinal = c.my_ordinal from rfl,
    commands_has_children_sort, commands_get_children_sort]

/-- The function `Commands::find_address` can never surface `CommandIsBroken`: the
recursive call into an element is made only when that element's range
contains the address, in which case the element always succeeds. -/
theorem Commands.find_address_ne_broken (c : Commands) (addr : Nat) :
    c.find_address addr ≠ .error .CommandIsBroken := by
  intro h
  by_cases hcont : (c.get_absolute_range).containsAddr addr
  · by_cases hhc : c.has_children
    · simp only [Commands.find_address, hcont, if_true, hhc,
        commands_get_children_eq hhc] at h
      set sorted := List.insertionSort elemLe c.elemList with hsorted
      cases hbs : binSearch default CommandElements.get_absolute_range
          CommandElements.get_min_abs_address CommandElements.get_max_abs_address
          sorted addr 0 (sorted.length - 1) with
      | found mid child =>
        rw [hbs] at h
        obtain ⟨hcc, -, -, -⟩ := binSearchAux_found default
          CommandElements.get_absolute_range CommandElements.get_min_abs_address
          CommandElements.get_max_abs_address sorted addr _ _ _ _ _ hbs
        simp [CommandElements.find_address, hcc] at h
      | inconsistent r => rw [hbs] at h; simp at h
      | exhausted => rw [hbs] at h; simp at h
    · simp only [Commands.find_address, hcont, if_true, hhc, Bool.false_eq_true,
        if_false] at h
      simp at h
  · simp only [Commands.find_address, hcont, Bool.false_eq_true, if_false] at h
    simp at h

/-! ## Claims -/

/-- C1 (amended): for every well-formed tree (ranges coherent with the
start/end fields and nonempty, each child's absolute range contained in its
parent's, sibling ranges non-overlapping, ordinals consistent with sorted
order) and every address `a` lying in some leaf's absolute range **and not
equal to the exclusive end of any node's range**, `find_address a` on the
root returns `Ok` with a `Coordinates` whose slice, command and element
indices equal the ordinals of the slice, command and element chain whose
ranges contain `a`. -/
theorem claim_C1_containment (f : File) (addr : Nat)
    (sl : Slices) (cmd : Commands) (e : CommandElements)
    (hwf : f.wfTree) (hs : sl ∈ f.sliceList) (hc : cmd ∈ sl.cmdList)
    (he : e ∈ cmd.elemList)
    (ha : e.start_abs_address ≤ addr ∧ addr < e.end_abs_address)
    (hav : f.avoidsEnds addr) :
    f.find_address addr =
      .ok { slice := some sl.my_ordinal, command := some cmd.my_ordinal,
            element := some e.my_ordinal } :=
  file_find_address_chain f addr sl cmd e hwf hs hc he ha.1 ha.2 hav

/-- C1 counterexample: on the well-formed tree with adjacent slices `[0,5)`
and `[5,10)`, the boundary address `5` lies in the second slice's leaf chain
(ordinals 1, 0, 0), yet `find_address 5` returns `InconsistentStructure`
because the probe at the first slice compares `5 > max` with the exclusive
end `5` and falls into the defect branch. -/
theorem claim_C1_counterexample :
    fileC1x.wfTree ∧ slC1b ∈ fileC1x.sliceList ∧
    exCmd 5 10 0 [exElem 5 10 0] ∈ slC1b.cmdList ∧
    exElem 5 10 0 ∈ (exCmd 5 10 0 [exElem 5 10 0]).elemList ∧
    (exElem 5 10 0).start_abs_address ≤ 5 ∧ 5 < (exElem 5 10 0).end_abs_address ∧
    fileC1x.find_address 5 = .error (.InconsistentStructure 5 ⟨0, 5⟩) ∧
    fileC1x.find_address 5 ≠
      .ok { slice := some 1, command := some 0, element := some 0 } := by
  decide

/-- C1 witness: the spec's end-to-end tree resolves address 175 to
coordinates (0, 0, 0) through the amended containment theorem. -/
theorem claim_C1_witness :
    fileW1.find_address 175 =
      .ok { slice := some 0, command := some 0, element := some 0 } :=
  claim_C1_containment fileW1 175 slW1 cmdW1 elW1 (by decide) (by decide)
    (by decide) (by decide) (by decide) (by decide)

/-- C2 counterexample: on the root `[0,30)` with slices `[0,10)` and
`[20,30)`, `find_address 15` returns `NotFound 15`, not
`InconsistentStructure`: the probe at `[0,10)` routes right (`15 > 10`), the
probe at `[20,30)` routes left (`15 < 20`), and the loop exhausts. -/
theorem claim_C2_counterexample :
    fileC2x.get_absolute_range = ⟨0, 30⟩ ∧
    fileC2x.sliceList.map Slices.get_absolute_range = [⟨0, 10⟩, ⟨20, 30⟩] ∧
    fileC2x.find_address 15 = .error (.NotFound 15) ∧
    (match fileC2x.find_address 15 with
      | .error (.InconsistentStructure _ _) => true
      | _ => false) = false := by
  decide

/-- C2 (amended): on the root `[0,30)` with slices `[0,10)` and `[20,30)`,
`find_address 15` returns `NotFound 15`; the `InconsistentStructure` error
is produced for a gap only when the queried address equals the probed
child's exclusive end bound, e.g. `find_address 10` returns
`InconsistentStructure(10, [0,10))`. -/
theorem claim_C2_gap_behavior :
    fileC2x.find_address 15 = .error (.NotFound 15) ∧
    fileC2x.find_address 10 = .error (.InconsistentStructure 10 ⟨0, 10⟩) := by
  decide

/-- C3 (amended): `CommandIsBroken` is never returned by
`Commands::find_address` (its recursive call is made only when the probed
element's range contains the address, and the element then always
succeeds); `SliceIsBroken` at the `File` level is returned both when the
recursive call into the located slice succeeded with the slice index unset
**and** when that call fails for any reason — in the latter case the
child's own typed error is replaced by `SliceIsBroken`, not propagated;
only a successful child lookup carrying a slice index is merged. -/
theorem claim_C3_broken_errors :
    (∀ (c : Commands) (addr : Nat), c.find_address addr ≠ .error .CommandIsBroken) ∧
    (∀ (f : File) (addr : Nat) (children : List Slices) (mid : Nat) (child : Slices),
      (f.get_absolute_range).containsAddr addr = true →
      f.get_children = some children →
      binSearch default Slices.get_absolute_range Slices.get_min_abs_address
        Slices.get_max_abs_address children addr 0 (children.length - 1) =
        .found mid child →
      (∀ err, child.find_address addr = .error err →
        f.find_address addr = .error .SliceIsBroken) ∧
      (∀ coords, child.find_address addr = .ok coords → coords.slice = none →
        f.find_address addr = .error .SliceIsBroken) ∧
      (∀ coords i, child.find_address addr = .ok coords → coords.slice = some i →
        f.find_address addr =
          .ok { slice := some i, command := coords.command,
                element := coords.element })) := by
  constructor
  · exact Commands.find_address_ne_broken
  · intro f addr children mid child hcont hgc hbs
    have hhc : f.has_children = true := by
      by_contra hh
      rw [Bool.not_eq_true] at hh
      simp [File.get_children, hh] at hgc
    refine ⟨fun err herr => ?_, fun coords hok hnone => ?_,
      fun coords i hok hsome => ?_⟩
    · simp only [File.find_address, hcont, if_true, hhc, hgc, hbs, herr]
    · simp only [File.find_address, hcont, if_true, hhc, hgc, hbs, hok, hnone]
    · simp only [File.find_address, hcont, if_true, hhc, hgc, hbs, hok, hsome]

/-- C3 counterexample: the slice `[0,10)` whose only command is `[0,5)`
fails on address 5 with its own typed error `InconsistentStructure`, but
the `File` returns `SliceIsBroken` in its place — the child's error is
replaced, not propagated, so `SliceIsBroken` is **not** returned exactly
when the recursive call succeeded with a missing index. -/
theorem claim_C3_counterexample :
    slC3.find_address 5 = .error (.InconsistentStructure 5 ⟨0, 5⟩) ∧
    fileC3x.find_address 5 = .error .SliceIsBroken := by
  decide

/-- C3 witness: the amended theorem applied at the concrete file whose only
slice fails on address 5. -/
theorem claim_C3_witness :
    Commands.find_address cmdC10w 5 ≠ .error .CommandIsBroken ∧
    fileC3x.find_address 5 = .error .SliceIsBroken :=
  ⟨claim_C3_broken_errors.1 cmdC10w 5,
   (claim_C3_broken_errors.2 fileC3x 5 [slC3] 0 slC3 (by decide) (by decide)
      (by decide)).1 (.InconsistentStructure 5 ⟨0, 5⟩) (by decide)⟩

/-- C4: for a `File` with a non-empty slices collection and an address
inside its absolute range on which the binary search exhausts — every slice
misses the address and routes the probe strictly left or right — the result
is `NotFound` carrying that address (not `AddressOutsideCurrentScope`). -/
theorem claim_C4_notfound (f : File) (addr : Nat)
    (h1 : f.has_children = true)
    (h2 : (f.get_absolute_range).containsAddr addr = true)
    (h3 : ∀ s ∈ f.sliceList, (s.get_absolute_range).containsAddr addr = false ∧
      (addr < s.get_min_abs_address ∨ s.get_max_abs_address < addr)) :
    f.find_address addr = .error (.NotFound addr) := by
  set sorted := List.insertionSort sliceLe f.sliceList with hsorted
  have hlen : 0 < sorted.length := by
    rw [hsorted, List.length_insertionSort]
    exact List.length_pos.mpr (file_has_children_iff.mp h1)
  have hmiss : ∀ x ∈ sorted, (x.get_absolute_range).containsAddr addr = false ∧
      (addr < x.get_min_abs_address ∨ x.get_max_abs_address < addr) :=
    fun x hx => h3 x ((List.mem_insertionSort sliceLe).mp hx)
  have hexh := binSearchAux_exhausts default Slices.get_absolute_range
    Slices.get_min_abs_address Slices.get_max_abs_address sorted addr hmiss
    (sorted.length - 1 + 1 - 0) 0 (sorted.length - 1) (Nat.le_refl _)
    (Nat.sub_lt hlen Nat.one_pos)
  simp only [File.find_address, h2, if_true, h1, file_get_children_eq h1, binSearch,
    ← hsorted, hexh]

/-- C4 witness: the gap address 15 in the two-slice file. -/
theorem claim_C4_witness : fileC4w.find_address 15 = .error (.NotFound 15) :=
  claim_C4_notfound fileC4w 15 (by decide) (by decide) (by decide)

/-- C5: for every node of the three level types present in the sources
(`File`, `Commands`, `CommandElements`) and every address outside the node's
absolute half-open range, `find_address` returns
`AddressOutsideCurrentScope` carrying the queried address and the node's
absolute range (the guard fires before any child is consulted). -/
theorem claim_C5_out_of_scope :
    (∀ (f : File) (addr : Nat), (f.get_absolute_range).containsAddr addr = false →
      f.find_address addr =
        .error (.AddressOutsideCurrentScope addr f.get_absolute_range)) ∧
    (∀ (c : Commands) (addr : Nat),
      (c.get_absolute_range).containsAddr addr = false →
      c.find_address addr =
        .error (.AddressOutsideCurrentScope addr c.get_absolute_range)) ∧
    (∀ (e : CommandElements) (addr : Nat),
      (e.get_absolute_range).containsAddr addr = false →
      e.find_address addr =
        .error (.AddressOutsideCurrentScope addr e.get_absolute_range)) := by
  refine ⟨fun f addr h => ?_, fun c addr h => ?_, fun e addr h => ?_⟩
  · simp [File.find_address, h]
  · simp [Commands.find_address, h]
  · simp [CommandElements.find_address, h]

/-- C5 witness: address 99 outside `[0,30)`, `[10,20)`, `[10,20)`. -/
theorem claim_C5_witness :
    fileC5w.find_address 99 = .error (.AddressOutsideCurrentScope 99 ⟨0, 30⟩) ∧
    cmdC5w.find_address 99 = .error (.AddressOutsideCurrentScope 99 ⟨10, 20⟩) ∧
    elC5w.find_address 99 = .error (.AddressOutsideCurrentScope 99 ⟨10, 20⟩) :=
  ⟨claim_C5_out_of_scope.1 fileC5w 99 (by decide),
   claim_C5_out_of_scope.2.1 cmdC5w 99 (by decide),
   claim_C5_out_of_scope.2.2 elC5w 99 (by decide)⟩

/-- C6: immediately after `sort_children` or `get_children`, the children
collection is non-decreasing in the start of each child's absolute range
(the `start_abs_address` field, which the data model identifies with the
range's start) and is a permutation — the same multiset — of the children
held before the call; a leaf's `sort_children` is the identity. -/
theorem claim_C6_sorted_perm :
    (∀ f : File,
      ((f.sort_children).sliceList.Pairwise sliceLe ∧
        (f.sort_children).sliceList.Perm f.sliceList) ∧
      (∀ l, f.get_children = some l → l.Pairwise sliceLe ∧ l.Perm f.sliceList)) ∧
    (∀ s : Slices,
      ((s.sort_children).cmdList.Pairwise cmdLe ∧
        (s.sort_children).cmdList.Perm s.cmdList) ∧
      (∀ l, s.get_children = some l → l.Pairwise cmdLe ∧ l.Perm s.cmdList)) ∧
    (∀ c : Commands,
      ((c.sort_children).elemList.Pairwise elemLe ∧
        (c.sort_children).elemList.Perm c.elemList) ∧
      (∀ l, c.get_children = some l → l.Pairwise elemLe ∧ l.Perm c.elemList)) ∧
    (∀ e : CommandElements, e.sort_children = e) := by
  refine ⟨fun f => ⟨?_, fun l hl => ?_⟩, fun s => ⟨?_, fun l hl => ?_⟩,
    fun c => ⟨?_, fun l hl => ?_⟩, fun e => rfl⟩
  · cases hs : f.slices with
    | none => simp [File.sort_children, File.sliceList, hs]
    | some m =>
      simp only [File.sort_children, File.sliceList, hs, Option.map_some,
        Option.getD_some]
      exact ⟨List.sorted_insertionSort sliceLe m, List.perm_insertionSort sliceLe m⟩
  · have hhc : f.has_children = true := by
      by_contra hh
      rw [Bool.not_eq_true] at hh
      simp [File.get_children, hh] at hl
    rw [file_get_children_eq hhc] at hl
    cases hl
    exact ⟨List.sorted_insertionSort sliceLe _, List.perm_insertionSort sliceLe _⟩
  · cases hs : s.commands with
    | none => simp [Slices.sort_children, Slices.cmdList, hs]
    | some m =>
      simp only [Slices.sort_children, Slices.cmdList, hs, Option.map_some,
        Option.getD_some]
      exact ⟨List.sorted_insertionSort cmdLe m, List.perm_insertionSort cmdLe m⟩
  · have hhc : s.has_children = true := by
      by_contra hh
      rw [Bool.not_eq_true] at hh
      simp [Slices.get_children, hh] at hl
    rw [slices_get_children_eq hhc] at hl
    cases hl
    exact ⟨List.sorted_insertionSort cmdLe _, List.perm_insertionSort cmdLe _⟩
  · cases hs : c.elements with
    | none => simp [Commands.sort_children, Commands.elemList, hs]
    | some m =>
      simp only [Commands.sort_children, Commands.elemList, hs, Option.map_some,
        Option.getD_some]
      exact ⟨List.sorted_insertionSort elemLe m, List.perm_insertionSort elemLe m⟩
  · have hhc : c.has_children = true := by
      by_contra hh
      rw [Bool.not_eq_true] at hh
      simp [Commands.get_children, hh] at hl
    rw [commands_get_children_eq hhc] at hl
    cases hl
    exact ⟨List.sorted_insertionSort elemLe _, List.perm_insertionSort elemLe _⟩

/-- C6 witness: the out-of-order file sorts to `[slC6a, slC6b]`, a
permutation of its registered slices. -/
theorem claim_C6_witness :
    ((fileC6w.sort_children).sliceList.Pairwise sliceLe ∧
      (fileC6w.sort_children).sliceList.Perm fileC6w.sliceList) ∧
    ([slC6a, slC6b].Pairwise sliceLe ∧ [slC6a, slC6b].Perm fileC6w.sliceList) :=
  ⟨(claim_C6_sorted_perm.1 fileC6w).1,
   (claim_C6_sorted_perm.1 fileC6w).2 [slC6a, slC6b] (by decide)⟩

/-- C7: calling `find_address` twice in succession on the same node — the
first call's only persistent side effect is the in-place sort of this
node's own children — produces identical results, because re-sorting the
already-sorted children is the identity and the result is computed from the
sorted children. -/
theorem claim_C7_idempotent :
    (∀ (f : File) (addr : Nat),
      (File.find_addressS (f.find_addressS addr).2 addr).1 =
        (f.find_addressS addr).1) ∧
    (∀ (c : Commands) (addr : Nat),
      (Commands.find_addressS (c.find_addressS addr).2 addr).1 =
        (c.find_addressS addr).1) := by
  constructor
  · intro f addr
    show (if (f.get_absolute_range).containsAddr addr && f.has_children then
        f.sort_children else f).find_address addr = f.find_address addr
    by_cases h : (f.get_absolute_range).containsAddr addr && f.has_children
    · rw [if_pos h]
      exact file_find_address_sort f addr
    · rw [if_neg h]
  · intro c addr
    show (if (c.get_absolute_range).containsAddr addr && c.has_children then
        c.sort_children else c).find_address addr = c.find_address addr
    by_cases h : (c.get_absolute_range).containsAddr addr && c.has_children
    · rw [if_pos h]
      exact commands_find_address_sort c addr
    · rw [if_neg h]

/-- C7 witness: repeating the lookup on the out-of-order file leaves the
result unchanged. -/
theorem claim_C7_witness :
    (File.find_addressS (fileC7w.find_addressS 25).2 25).1 =
      (fileC7w.find_addressS 25).1 :=
  claim_C7_idempotent.1 fileC7w 25

/-- C8: the binary-search loop of `find_address` is index-safe: when run
over a non-empty children array on the interval `[0, len-1]` (the `len - 1`
is well defined because `has_children` guarantees at least one child), every
probed index is in bounds and every `end = mid - 1` assignment happens with
`mid ≥ 1` (the `mid == 0` case breaks first), as recorded by the
instrumented loop, which computes the same outcome as the plain loop. -/
theorem claim_C8_search_safety :
    (∀ f : File, f.has_children = true → 1 ≤ f.sliceList.length) ∧
    (∀ c : Commands, c.has_children = true → 1 ≤ c.elemList.length) ∧
    (∀ (α : Type) (dflt : α) (rng : α → RangeU) (mn mx : α → Nat)
      (children : List α) (addr : Nat), children ≠ [] →
      (binSearchChk dflt rng mn mx children addr 0 (children.length - 1)).2 = true ∧
      (binSearchChk dflt rng mn mx children addr 0 (children.length - 1)).1 =
        binSearch dflt rng mn mx children addr 0 (children.length - 1)) := by
  refine ⟨fun f h => ?_, fun c h => ?_,
    fun α dflt rng mn mx children addr hne => ?_⟩
  · exact List.length_pos.mpr (file_has_children_iff.mp h)
  · exact List.length_pos.mpr (commands_has_children_iff.mp h)
  · have hlen : 0 < children.length := List.length_pos.mpr hne
    have hsafe := binSearchChkAux_safe dflt rng mn mx children addr
      (children.length - 1 + 1 - 0) 0 (children.length - 1)
      (Nat.sub_lt hlen Nat.one_pos)
    constructor
    · rw [binSearchChk, hsafe]
    · rw [binSearchChk, hsafe]
      rfl

/-- C8 witness: the instrumented loop on a singleton children array. -/
theorem claim_C8_witness :
    1 ≤ fileC4w.sliceList.length ∧
    (binSearchChk default CommandElements.get_absolute_range
      CommandElements.get_min_abs_address CommandElements.get_max_abs_address
      [exElem 0 5 0] 3 0 0).2 = true ∧
    (binSearchChk default CommandElements.get_absolute_range
      CommandElements.get_min_abs_address CommandElements.get_max_abs_address
      [exElem 0 5 0] 3 0 0).1 =
      binSearch default CommandElements.get_absolute_range
        CommandElements.get_min_abs_address CommandElements.get_max_abs_address
        [exElem 0 5 0] 3 0 0 :=
  ⟨claim_C8_search_safety.1 fileC4w (by decide),
   (claim_C8_search_safety.2.2 CommandElements default
      CommandElements.get_absolute_range CommandElements.get_min_abs_address
      CommandElements.get_max_abs_address [exElem 0 5 0] 3 (by decide)).1,
   (claim_C8_search_safety.2.2 CommandElements default
      CommandElements.get_absolute_range CommandElements.get_min_abs_address
      CommandElements.get_max_abs_address [exElem 0 5 0] 3 (by decide)).2⟩

/-- C9: the binary-search loop terminates within `hi + 1 - lo` iterations:
with any fuel at least the interval size the loop computes the same result
as `binSearch` (the canonical interval-size-fuel run), so the `while`
loop's interval strictly shrinks to exhaustion; recursion between levels is
structural through the fixed `File` → `Slices` → `Commands` →
`CommandElements` hierarchy. -/
theorem claim_C9_termination {α : Type} (dflt : α) (rng : α → RangeU)
    (mn mx : α → Nat) (children : List α) (addr fuel lo hi : Nat)
    (h : hi + 1 - lo ≤ fuel) :
    binSearchAux dflt rng mn mx children addr fuel lo hi =
      binSearch dflt rng mn mx children addr lo hi :=
  binSearchAux_eq_binSearch dflt rng mn mx children addr fuel lo hi h

/-- C9 witness: a large fuel computes the same result as the interval-size
fuel on a concrete array. -/
theorem claim_C9_witness :
    binSearchAux default CommandElements.get_absolute_range
      CommandElements.get_min_abs_address CommandElements.get_max_abs_address
      [exElem 0 5 0] 3 7 0 0 =
    binSearch default CommandElements.get_absolute_range
      CommandElements.get_min_abs_address CommandElements.get_max_abs_address
      [exElem 0 5 0] 3 0 0 :=
  claim_C9_termination default CommandElements.get_absolute_range
    CommandElements.get_min_abs_address CommandElements.get_max_abs_address
    [exElem 0 5 0] 3 7 0 0 (by decide)

/-- C10: a `File` whose slices collection is `None` or empty answers every
in-range address with `InconsistentStructure` over its own absolute range
(not `NotFound`), whereas a `Commands` node without children returns an
`Ok` result carrying only its own ordinal. -/
theorem claim_C10_empty_root (f : File) (c : Commands) (addr addr2 : Nat)
    (hf : f.slices = none ∨ f.slices = some [])
    (ha : (f.get_absolute_range).containsAddr addr = true)
    (hc : c.elements = none ∨ c.elements = some [])
    (ha2 : (c.get_absolute_range).containsAddr addr2 = true) :
    f.find_address addr = .error (.InconsistentStructure addr f.get_absolute_range) ∧
    c.find_address addr2 =
      .ok { slice := none, command := some c.my_ordinal, element := none } := by
  have hfh : f.has_children = false := by
    rcases hf with h | h <;> simp [File.has_children, h]
  have hch : c.has_children = false := by
    rcases hc with h | h <;> simp [Commands.has_children, h]
  constructor
  · simp [File.find_address, ha, hfh]
  · simp [Commands.find_address, ha2, hch, Coordinates.new]

/-- C10 witness: an empty file of size 30 at address 5, and a childless
command `[0,30)` at address 5. -/
theorem claim_C10_witness :
    (File.with_size 30).find_address 5 =
      .error (.InconsistentStructure 5 ⟨0, 30⟩) ∧
    cmdC10w.find_address 5 =
      .ok { slice := none, command := some 0, element := none } :=
  claim_C10_empty_root (File.with_size 30) cmdC10w 5 5 (Or.inl rfl) (by decide)
    (Or.inr rfl) (by decide)

end JanusArray
